import Mathlib

/-!
Shallow embedding of the offline fallback responder of the chatbot backend
(`src/minigpt.py`): the knowledge base, the response tree built from it, the
two traversal strategies (`_bfs_search`, `_dfs_search`) and their
reconciliation (`get_response`), together with theorems settling the frozen
claims about this code.

Randomness model: every call to Python's `random.choice(l)` consumes a fresh
draw from the global generator.  We model each such draw as an explicit
natural-number parameter `r`; the chosen element is `l[r % len(l)]`, so any
member of the list can be selected by a suitable draw.  Functions of the
source that perform a draw take the corresponding parameter explicitly.
-/

/-- A knowledge-base entry: the value of one category in the JSON document,
`{"keywords": [...], "responses": [...]}`. -/
structure KBEntry where
  keywords : List String
  responses : List String
deriving Repr, DecidableEq

/-- The loaded knowledge base: the JSON object as an ordered association list
(Python dicts preserve insertion order). -/
abbrev KB := List (String × KBEntry)

/-- Tree node of `minigpt.py` (`class Node`): a label (`keyword`), a bound
response string and an ordered list of children. -/
inductive Node where
  | mk (keyword : String) (response : String) (children : List Node)

def Node.keyword : Node → String
  | .mk k _ _ => k

def Node.response : Node → String
  | .mk _ r _ => r

def Node.children : Node → List Node
  | .mk _ _ cs => cs

mutual

def Node.size : Node → Nat
  | .mk _ _ cs => 1 + Node.sizeList cs

def Node.sizeList : List Node → Nat
  | [] => 0
  | c :: cs => Node.size c + Node.sizeList cs

end

theorem Node.sizeList_append (a b : List Node) :
    Node.sizeList (a ++ b) = Node.sizeList a + Node.sizeList b := by
  induction a with
  | nil => simp [Node.sizeList]
  | cons c cs ih => simp [Node.sizeList, ih]; omega

theorem Node.size_pos (n : Node) : 0 < n.size := by
  cases n; simp [Node.size]

theorem Node.size_eq (n : Node) : n.size = 1 + Node.sizeList n.children := by
  cases n; simp [Node.size, Node.children]

/-- Python's substring test `needle in hay` on strings. -/
def pyIn (needle hay : String) : Bool :=
  decide (needle.toList <:+: hay.toList)

/-- Python's `str.lower()` (per-character lowercasing). -/
def pyLower (s : String) : String :=
  String.mk (s.toList.map Char.toLower)

/-- Whitespace splitting of Python's `str.split()` (no argument): split on
runs of whitespace, producing no empty tokens.  `cur` accumulates the
characters of the word being read, in reverse. -/
def splitWSAux (cs : List Char) (cur : List Char) : List String :=
  match cs with
  | [] => if cur = [] then [] else [String.mk cur.reverse]
  | c :: rest =>
    if c.isWhitespace then
      if cur = [] then splitWSAux rest []
      else String.mk cur.reverse :: splitWSAux rest []
    else splitWSAux rest (c :: cur)

/-- Python's `query.lower().split()`. -/
def pySplitLower (query : String) : List String :=
  splitWSAux (pyLower query).toList []

/-- The token set `set(query.lower().split())`, as the deduplicated token
list (a sum over a Python set visits each distinct element once). -/
def queryWords (query : String) : List String :=
  (pySplitLower query).dedup

/-- The per-node match test of both searches:
`word in node.keyword.lower() or node.keyword.lower() in word`. -/
def wordMatches (word : String) (keyword : String) : Bool :=
  pyIn word (pyLower keyword) || pyIn (pyLower keyword) word

/-- The score of a node against the token set:
`sum(1 for word in query_words if ...)`. -/
def scoreNode (qw : List String) (n : Node) : Nat :=
  qw.countP (fun word => wordMatches word n.keyword)

/-- Models `random.choice(l)` where `r` is the fresh random draw consumed by
this call: the element at index `r % len(l)` (any element is reachable). -/
def randChoice (l : List String) (r : Nat) : String :=
  l.getD (r % l.length) ""

/-- One category subtree of `_build_response_tree`: the category node bound
to a drawn response, with one keyword child per keyword, each bound to its
own independently drawn response.  `draw j` is the random draw used for the
j-th `random.choice` in this category (0 = category node, j+1 = j-th
keyword node). -/
def buildCategoryNode (category : String) (e : KBEntry) (draw : Nat → Nat) : Node :=
  Node.mk category (randChoice e.responses (draw 0))
    (e.keywords.enum.map (fun p =>
      Node.mk p.2 (randChoice e.responses (draw (p.1 + 1))) []))

/-- The tree built by `MiniGPT._build_response_tree`: a root labelled
`"ROOT"` with empty response, with one category node per entry of the
knowledge base, in order.  Note the loop `for category, data in
self.knowledge_base.items()` runs over every entry, the `fallback` entry
included.  `draw i j` is the random draw for the j-th choice of the i-th
category. -/
def build_response_tree (kb : KB) (draw : Nat → Nat → Nat) : Node :=
  Node.mk "ROOT" ""
    (kb.enum.map (fun p => buildCategoryNode p.2.1 p.2.2 (draw p.1)))

/-- Lookup `self.knowledge_base["fallback"]["responses"]`. -/
def fallbackPool (kb : KB) : List String :=
  (((kb.find? (fun p => p.1 == "fallback")).map (fun p => p.2.responses))).getD []

/-- The traversal loop of `_bfs_search`: FIFO queue, pop from the front,
enqueue children at the back; a node replaces the best candidate when
`score > best_score and node.response`. -/
def bfsLoop (qw : List String) (queue : List Node) (best : Option Node)
    (bestScore : Nat) : Option Node × Nat :=
  match queue with
  | [] => (best, bestScore)
  | n :: rest =>
    let score := scoreNode qw n
    if bestScore < score ∧ n.response ≠ "" then
      bfsLoop qw (rest ++ n.children) (some n) score
    else
      bfsLoop qw (rest ++ n.children) best bestScore
termination_by Node.sizeList queue
decreasing_by
  all_goals simp [Node.sizeList, Node.size_eq, Node.sizeList_append]; omega

/-- The traversal loop of `_dfs_search`: LIFO stack (modelled with the list
head as the top), pop the top, push the children in reverse stored order so
that the first child ends on top (`n.children ++ rest`); same candidate
rule as the BFS loop. -/
def dfsLoop (qw : List String) (stack : List Node) (best : Option Node)
    (bestScore : Nat) : Option Node × Nat :=
  match stack with
  | [] => (best, bestScore)
  | n :: rest =>
    let score := scoreNode qw n
    if bestScore < score ∧ n.response ≠ "" then
      dfsLoop qw (n.children ++ rest) (some n) score
    else
      dfsLoop qw (n.children ++ rest) best bestScore
termination_by Node.sizeList stack
decreasing_by
  all_goals simp [Node.sizeList, Node.size_eq, Node.sizeList_append]

/-- `MiniGPT._bfs_search(query)`: empty query short-circuits to the fallback
pool's element 0; otherwise traverse breadth-first and return the best
match's response when one was found with positive score, else a random
fallback choice (`r` is that call's random draw). -/
def bfs_search (root : Node) (fb : List String) (r : Nat) (query : String) : String :=
  if query = "" then fb.getD 0 ""
  else
    match bfsLoop (queryWords query) [root] none 0 with
    | (some best, bestScore) =>
      if 0 < bestScore then best.response else randChoice fb r
    | (none, _) => randChoice fb r

/-- `MiniGPT._dfs_search(query)`: same contract with the depth-first loop. -/
def dfs_search (root : Node) (fb : List String) (r : Nat) (query : String) : String :=
  if query = "" then fb.getD 0 ""
  else
    match dfsLoop (queryWords query) [root] none 0 with
    | (some best, bestScore) =>
      if 0 < bestScore then best.response else randChoice fb r
    | (none, _) => randChoice fb r

/-- `MiniGPT.get_response(query)`: run both strategies (each with its own
potential random draw) and return the DFS result exactly when it is strictly
longer, the BFS result otherwise. -/
def get_response (root : Node) (fb : List String) (rB rD : Nat) (query : String) : String :=
  let bfs_response := bfs_search root fb rB query
  let dfs_response := dfs_search root fb rD query
  if dfs_response.length > bfs_response.length then dfs_response
  else bfs_response

example : pyIn "ell" "hello" = true := by decide
example : pyIn "" "x" = true := by decide
example : queryWords "Hello   hello world" = ["hello", "world"] := by decide
example :
    bfs_search (Node.mk "ROOT" ""
      [Node.mk "greeting" "Hi there!" [Node.mk "hello" "Hi there!" [], Node.mk "hi" "Hi there!" []],
       Node.mk "fallback" "I don't understand." []])
      ["I don't understand."] 0 "hello" = "Hi there!" := by
  simp +decide [bfs_search, bfsLoop, Node.children, Node.response, Node.keyword,
    scoreNode, randChoice]
example :
    dfs_search (Node.mk "ROOT" ""
      [Node.mk "greeting" "Hi there!" [Node.mk "hello" "Hi there!" [], Node.mk "hi" "Hi there!" []],
       Node.mk "fallback" "I don't understand." []])
      ["I don't understand."] 3 "xyzzy" = "I don't understand." := by
  simp +decide [dfs_search, dfsLoop, Node.children, Node.response, Node.keyword,
    scoreNode, randChoice]

/-! ## Traversal orders

The loops of `_bfs_search` and `_dfs_search` do not materialise the list of
visited nodes; to reason about "visit order" we define, with the same queue
and stack disciplines as the loops, the sequence of nodes each traversal
pops, and prove that each loop is exactly a left fold of the shared
candidate-update rule over its visit order. -/

mutual

def Node.preorder : Node → List Node
  | .mk k r cs => Node.mk k r cs :: Node.preorderList cs

def Node.preorderList : List Node → List Node
  | [] => []
  | c :: cs => Node.preorder c ++ Node.preorderList cs

end

theorem Node.preorder_eq (n : Node) :
    n.preorder = n :: Node.preorderList n.children := by
  cases n; rfl

theorem Node.preorderList_append (a b : List Node) :
    Node.preorderList (a ++ b) = Node.preorderList a ++ Node.preorderList b := by
  induction a with
  | nil => simp [Node.preorderList]
  | cons c cs ih => simp [Node.preorderList, ih]

/-- The sequence of nodes popped by the FIFO discipline of `_bfs_search`
starting from the given queue. -/
def bfsVisitOrder (queue : List Node) : List Node :=
  match queue with
  | [] => []
  | n :: rest => n :: bfsVisitOrder (rest ++ n.children)
termination_by Node.sizeList queue
decreasing_by
  all_goals simp [Node.sizeList, Node.size_eq, Node.sizeList_append]
  all_goals omega

/-- The sequence of nodes popped by the LIFO discipline of `_dfs_search`
starting from the given stack. -/
def dfsVisitOrder (stack : List Node) : List Node :=
  match stack with
  | [] => []
  | n :: rest => n :: dfsVisitOrder (n.children ++ rest)
termination_by Node.sizeList stack
decreasing_by
  all_goals simp [Node.sizeList, Node.size_eq, Node.sizeList_append]

/-- The candidate-update rule shared by both loops, as a fold step:
`if score > best_score and node.response: best_score, best_match = score, node`. -/
def stepBest (qw : List String) (acc : Option Node × Nat) (n : Node) :
    Option Node × Nat :=
  if acc.2 < scoreNode qw n ∧ n.response ≠ "" then (some n, scoreNode qw n) else acc

theorem dfsVisitOrder_eq_preorderList (stack : List Node) :
    dfsVisitOrder stack = Node.preorderList stack := by
  induction stack using dfsVisitOrder.induct with
  | case1 => simp [dfsVisitOrder, Node.preorderList]
  | case2 n rest ih =>
    rw [dfsVisitOrder, ih]
    simp [Node.preorderList, Node.preorderList_append, Node.preorder_eq]

theorem bfsVisitOrder_perm (queue : List Node) :
    (bfsVisitOrder queue).Perm (Node.preorderList queue) := by
  induction queue using bfsVisitOrder.induct with
  | case1 => simp [bfsVisitOrder, Node.preorderList]
  | case2 n rest ih =>
    rw [bfsVisitOrder]
    refine List.Perm.trans (List.Perm.cons n ih) ?_
    rw [Node.preorderList, Node.preorderList_append, Node.preorder_eq]
    refine List.Perm.trans (List.Perm.cons n (List.perm_append_comm)) ?_
    simp

theorem bfsLoop_cons (qw : List String) (n : Node) (rest : List Node)
    (b : Option Node) (bs : Nat) :
    bfsLoop qw (n :: rest) b bs =
      bfsLoop qw (rest ++ n.children) (stepBest qw (b, bs) n).1
        (stepBest qw (b, bs) n).2 := by
  rw [bfsLoop]
  by_cases h : bs < scoreNode qw n ∧ n.response ≠ ""
  · simp [stepBest, h]
  · simp [stepBest, h]

theorem dfsLoop_cons (qw : List String) (n : Node) (rest : List Node)
    (b : Option Node) (bs : Nat) :
    dfsLoop qw (n :: rest) b bs =
      dfsLoop qw (n.children ++ rest) (stepBest qw (b, bs) n).1
        (stepBest qw (b, bs) n).2 := by
  rw [dfsLoop]
  by_cases h : bs < scoreNode qw n ∧ n.response ≠ ""
  · simp [stepBest, h]
  · simp [stepBest, h]

theorem bfsLoop_eq_foldl (qw : List String) (queue : List Node) :
    ∀ b bs, bfsLoop qw queue b bs =
      (bfsVisitOrder queue).foldl (stepBest qw) (b, bs) := by
  induction queue using bfsVisitOrder.induct with
  | case1 => intro b bs; simp [bfsLoop, bfsVisitOrder]
  | case2 n rest ih =>
    intro b bs
    rw [bfsLoop_cons, bfsVisitOrder]
    simp only [List.foldl_cons]
    exact ih (stepBest qw (b, bs) n).1 (stepBest qw (b, bs) n).2

theorem dfsLoop_eq_foldl (qw : List String) (stack : List Node) :
    ∀ b bs, dfsLoop qw stack b bs =
      (dfsVisitOrder stack).foldl (stepBest qw) (b, bs) := by
  induction stack using dfsVisitOrder.induct with
  | case1 => intro b bs; simp [dfsLoop, dfsVisitOrder]
  | case2 n rest ih =>
    intro b bs
    rw [dfsLoop_cons, dfsVisitOrder]
    simp only [List.foldl_cons]
    exact ih (stepBest qw (b, bs) n).1 (stepBest qw (b, bs) n).2

theorem stepBest_pos (qw : List String) (acc : Option Node × Nat) (n : Node)
    (h : acc.2 < scoreNode qw n ∧ n.response ≠ "") :
    stepBest qw acc n = (some n, scoreNode qw n) := by
  rw [stepBest, if_pos h]

theorem stepBest_neg (qw : List String) (acc : Option Node × Nat) (n : Node)
    (h : ¬(acc.2 < scoreNode qw n ∧ n.response ≠ "")) :
    stepBest qw acc n = acc := by
  rw [stepBest, if_neg h]

theorem foldl_stepBest_no_update (qw : List String) (L : List Node) :
    ∀ acc : Option Node × Nat, (∀ m ∈ L, scoreNode qw m ≤ acc.2) →
      L.foldl (stepBest qw) acc = acc := by
  induction L with
  | nil => intro acc _; rfl
  | cons m rest ih =>
    intro acc h
    have hm : scoreNode qw m ≤ acc.2 := h m (by simp)
    have hstep : stepBest qw acc m = acc := by
      apply stepBest_neg
      rintro ⟨h1, _⟩
      omega
    rw [List.foldl_cons, hstep]
    exact ih acc (fun x hx => h x (by simp [hx]))

theorem foldl_stepBest_sound (qw : List String) (L : List Node) :
    ∀ acc : Option Node × Nat,
      (L.foldl (stepBest qw) acc).1 = acc.1 ∨
      ∃ m ∈ L, m.response ≠ "" ∧ (L.foldl (stepBest qw) acc).1 = some m := by
  induction L with
  | nil => intro acc; left; rfl
  | cons m rest ih =>
    intro acc
    rw [List.foldl_cons]
    rcases ih (stepBest qw acc m) with h | ⟨x, hx, hr, he⟩
    · by_cases hc : acc.2 < scoreNode qw m ∧ m.response ≠ ""
      · right
        exact ⟨m, by simp, hc.2, by rw [h, stepBest_pos qw acc m hc]⟩
      · left
        rw [h, stepBest_neg qw acc m hc]
    · right
      exact ⟨x, by simp [hx], hr, he⟩

theorem foldl_stepBest_none_zero (qw : List String) (L : List Node) :
    ∀ acc : Option Node × Nat, (acc.1 = none → acc.2 = 0) →
      (L.foldl (stepBest qw) acc).1 = none → (L.foldl (stepBest qw) acc).2 = 0 := by
  induction L with
  | nil => intro acc h; exact h
  | cons m rest ih =>
    intro acc h
    rw [List.foldl_cons]
    apply ih
    intro hnone
    by_cases hc : acc.2 < scoreNode qw m ∧ m.response ≠ ""
    · rw [stepBest_pos qw acc m hc] at hnone
      exact absurd hnone (by simp)
    · rw [stepBest_neg qw acc m hc] at hnone ⊢
      exact h hnone

theorem foldl_stepBest_max (qw : List String) (n : Node) (hr : n.response ≠ "") :
    ∀ (L : List Node) (acc : Option Node × Nat), n ∈ L → acc.2 < scoreNode qw n →
      (∀ m ∈ L, m ≠ n → scoreNode qw m < scoreNode qw n) →
      L.foldl (stepBest qw) acc = (some n, scoreNode qw n) := by
  intro L
  induction L with
  | nil => intro acc hmem; cases hmem
  | cons m rest ih =>
    intro acc hmem hacc hmax
    rw [List.foldl_cons]
    by_cases hmn : m = n
    · subst hmn
      rw [stepBest_pos qw acc m ⟨hacc, hr⟩]
      apply foldl_stepBest_no_update
      intro x hx
      by_cases hxm : x = m
      · subst hxm; exact le_refl _
      · exact le_of_lt (hmax x (by simp [hx]) hxm)
    · have hnr : n ∈ rest := by
        rcases List.mem_cons.mp hmem with h | h
        · exact absurd h.symm hmn
        · exact h
      have hlt : scoreNode qw m < scoreNode qw n := hmax m (by simp) hmn
      have hacc2 : (stepBest qw acc m).2 < scoreNode qw n := by
        by_cases hc : acc.2 < scoreNode qw m ∧ m.response ≠ ""
        · rw [stepBest_pos qw acc m hc]; exact hlt
        · rw [stepBest_neg qw acc m hc]; exact hacc
      exact ih (stepBest qw acc m) hnr hacc2
        (fun x hx hxn => hmax x (by simp [hx]) hxn)

theorem randChoice_mem (l : List String) (r : Nat) (h : l ≠ []) :
    randChoice l r ∈ l := by
  rw [randChoice]
  have hlt : r % l.length < l.length := Nat.mod_lt _ (List.length_pos.mpr h)
  rw [List.getD_eq_getElem l "" hlt]
  exact List.getElem_mem hlt

/-! ## Concrete inputs used in witnesses and counterexamples -/

/-- The spec's end-to-end example knowledge base. -/
def kbEx : KB :=
  [("greeting", ⟨["hello", "hi"], ["Hi there!"]⟩),
   ("fallback", ⟨[], ["I don't understand."]⟩)]

/-- The fallback pool of `kbEx`. -/
def fbEx : List String := ["I don't understand."]

/-- The tree the builder produces from `kbEx` (every draw picks index 0;
`kbEx` has singleton response lists, so the draws are irrelevant). -/
def treeEx : Node :=
  Node.mk "ROOT" ""
    [Node.mk "greeting" "Hi there!"
      [Node.mk "hello" "Hi there!" [], Node.mk "hi" "Hi there!" []],
     Node.mk "fallback" "I don't understand." []]

/-- A tree whose two candidate nodes score equally for the query
`"melon"`: the keyword node `"melon"` (visited first in both traversals)
and the keyword node `"melonx"`. -/
def treeTie : Node :=
  Node.mk "ROOT" ""
    [Node.mk "cat" "" [Node.mk "melon" "first" [], Node.mk "melonx" "second" []]]

/-- A tree on which BFS and DFS find different equal-score winners for the
query `"match"`: BFS reaches the category node `"match2"` (level order)
before the keyword node `"match"`, DFS the other way round. -/
def treeCross : Node :=
  Node.mk "ROOT" ""
    [Node.mk "alpha" "" [Node.mk "match" "longerresponse" []],
     Node.mk "match2" "short" []]

/-- A two-element fallback pool with distinct members. -/
def fbTwo : List String := ["a", "bb"]

/-! ## Generic list helpers -/

theorem enumFrom_map_snd_comp {α β : Type} (g : α → β) :
    ∀ (i : Nat) (l : List α), (l.enumFrom i).map (fun p => g p.2) = l.map g := by
  intro i l
  induction l generalizing i with
  | nil => rfl
  | cons a t ih => simp [List.enumFrom, ih]

theorem buildCategoryNode_keyword (c : String) (e : KBEntry) (d : Nat → Nat) :
    (buildCategoryNode c e d).keyword = c := rfl

/-! ## The claims -/

/-- C1 (amended): the tree built by the Response Tree Builder has the
synthetic root label `"ROOT"`, and contains exactly one category node per
category of the knowledge base — the `fallback` category included — each
attached to the root, in knowledge-base order.  (The builder's loop runs
over every entry of the knowledge base and never excludes `fallback`.) -/
theorem claim_C1 (kb : KB) (draw : Nat → Nat → Nat) :
    (build_response_tree kb draw).keyword = "ROOT" ∧
    (build_response_tree kb draw).children.map Node.keyword
      = kb.map (fun p => p.1) := by
  refine ⟨rfl, ?_⟩
  rw [build_response_tree]
  show (kb.enum.map fun p => buildCategoryNode p.2.1 p.2.2 (draw p.1)).map Node.keyword
      = kb.map fun p => p.1
  rw [List.map_map]
  have h := enumFrom_map_snd_comp (fun q => q.1) 0 kb
  simpa [List.enum, Function.comp, buildCategoryNode_keyword] using h

/-- C1 counterexample: on the spec's own example knowledge base the builder
attaches a category node labelled `"fallback"` to the root, refuting "the
tree contains no node whose label is `fallback`". -/
theorem claim_C1_counterexample :
    (build_response_tree kbEx (fun _ _ => 0)).children.map Node.keyword
      = ["greeting", "fallback"] := by
  simp +decide [build_response_tree, buildCategoryNode, Node.children,
    Node.keyword, randChoice, kbEx, List.enum, List.enumFrom]

/-- C3: for the empty query both strategies short-circuit to the fallback
pool's element at index 0, for every tree and every random draw (the result
does not depend on `r`, so no randomness is involved). -/
theorem claim_C3 (root : Node) (fb : List String) (r : Nat) :
    bfs_search root fb r "" = fb.getD 0 "" ∧ dfs_search root fb r "" = fb.getD 0 "" := by
  constructor
  · rw [bfs_search, if_pos rfl]
  · rw [dfs_search, if_pos rfl]

/-- C6: `get_response` returns the DFS result when it is strictly longer
than the BFS result, and the BFS result otherwise (ties included). -/
theorem claim_C6 (root : Node) (fb : List String) (rB rD : Nat) (q : String) :
    ((dfs_search root fb rD q).length > (bfs_search root fb rB q).length →
      get_response root fb rB rD q = dfs_search root fb rD q) ∧
    ((dfs_search root fb rD q).length ≤ (bfs_search root fb rB q).length →
      get_response root fb rB rD q = bfs_search root fb rB q) := by
  constructor
  · intro h
    rw [get_response]
    simp only [h, if_pos]
  · intro h
    rw [get_response]
    simp only [if_neg (Nat.not_lt.mpr h)]

/-- C6 witness: on `treeCross` with query `"match"` the DFS result
(`"longerresponse"`, length 14) is strictly longer than the BFS result
(`"short"`, length 5) and `get_response` returns the DFS result. -/
theorem claim_C6_witness :
    get_response treeCross fbEx 0 0 "match" = dfs_search treeCross fbEx 0 "match" :=
  (claim_C6 treeCross fbEx 0 0 "match").1 (by
    simp +decide [bfs_search, dfs_search, bfsLoop, dfsLoop, treeCross, fbEx,
      Node.children, Node.response, Node.keyword, scoreNode, randChoice])

/-- C4: a visited node replaces the current best candidate only if its
response is non-empty AND its score is strictly greater than the best score
so far: when its score is at most the current best (ties included) or its
response is empty, processing it leaves the accumulator untouched in both
loops, so on equal scores the earlier-visited node is retained.  The last
two conjuncts exhibit the tie-break on `treeTie`, whose keyword nodes
`"melon"` and `"melonx"` both score 1 for the query `"melon"`: both
strategies return the response of the earlier-visited `"melon"` node. -/
theorem claim_C4 (qw : List String) (n : Node) (rest : List Node)
    (best : Option Node) (bs : Nat)
    (h : scoreNode qw n ≤ bs ∨ n.response = "") :
    bfsLoop qw (n :: rest) best bs = bfsLoop qw (rest ++ n.children) best bs ∧
    dfsLoop qw (n :: rest) best bs = dfsLoop qw (n.children ++ rest) best bs ∧
    bfs_search treeTie fbEx 0 "melon" = "first" ∧
    dfs_search treeTie fbEx 0 "melon" = "first" := by
  have hno : ¬(bs < scoreNode qw n ∧ n.response ≠ "") := by
    rcases h with h | h
    · rintro ⟨h1, _⟩; omega
    · rintro ⟨_, h2⟩; exact h2 h
  refine ⟨?_, ?_, ?_, ?_⟩
  · rw [bfsLoop_cons, stepBest_neg qw (best, bs) n hno]
  · rw [dfsLoop_cons, stepBest_neg qw (best, bs) n hno]
  · simp +decide [bfs_search, bfsLoop, treeTie, fbEx, Node.children,
      Node.response, Node.keyword, scoreNode, randChoice]
  · simp +decide [dfs_search, dfsLoop, treeTie, fbEx, Node.children,
      Node.response, Node.keyword, scoreNode, randChoice]

/-- C4 witness: processing the equal-scoring `"melonx"` node (score 1, equal
to the current best score 1 held by the `"melon"` node) leaves both loops'
accumulators untouched, and on `treeTie` both strategies return `"first"`. -/
theorem claim_C4_witness :
    bfsLoop ["melon"] [Node.mk "melonx" "second" []]
        (some (Node.mk "melon" "first" [])) 1
      = bfsLoop ["melon"] ([] ++ (Node.mk "melonx" "second" []).children)
        (some (Node.mk "melon" "first" [])) 1 ∧
    dfsLoop ["melon"] [Node.mk "melonx" "second" []]
        (some (Node.mk "melon" "first" [])) 1
      = dfsLoop ["melon"] ((Node.mk "melonx" "second" []).children ++ [])
        (some (Node.mk "melon" "first" [])) 1 ∧
    bfs_search treeTie fbEx 0 "melon" = "first" ∧
    dfs_search treeTie fbEx 0 "melon" = "first" :=
  claim_C4 ["melon"] (Node.mk "melonx" "second" []) []
    (some (Node.mk "melon" "first" [])) 1
    (Or.inl (by decide))

theorem dedup_filter_comm {α : Type} [DecidableEq α] (p : α → Bool) (l : List α) :
    l.dedup.filter p = (l.filter p).dedup := by
  induction l with
  | nil => rfl
  | cons a t ih =>
    by_cases hm : a ∈ t
    · rw [List.dedup_cons_of_mem hm]
      by_cases hp : p a
      · rw [List.filter_cons_of_pos hp,
          List.dedup_cons_of_mem (List.mem_filter.mpr ⟨hm, hp⟩)]
        exact ih
      · rw [List.filter_cons_of_neg (by simpa using hp)]
        exact ih
    · rw [List.dedup_cons_of_not_mem hm]
      by_cases hp : p a
      · rw [List.filter_cons_of_pos hp, List.filter_cons_of_pos hp,
          List.dedup_cons_of_not_mem (fun hc => hm (List.mem_filter.mp hc).1), ih]
      · rw [List.filter_cons_of_neg (by simpa using hp),
          List.filter_cons_of_neg (by simpa using hp)]
        exact ih

/-- C5: against any query, a node's score as computed by the searches equals
the number of distinct lowercase whitespace-separated query tokens (the
token set) satisfying the symmetric substring containment with the node's
lowercased label — each distinct token contributing at most 1 — and hence
never exceeds the number of distinct tokens. -/
theorem claim_C5 (q : String) (n : Node) :
    scoreNode (queryWords q) n
      = ((pySplitLower q).toFinset.filter
          (fun w => wordMatches w n.keyword = true)).card ∧
    scoreNode (queryWords q) n ≤ (pySplitLower q).toFinset.card := by
  constructor
  · rw [scoreNode, queryWords, List.countP_eq_length_filter, dedup_filter_comm,
      ← List.card_toFinset, List.toFinset_filter]
  · rw [scoreNode, queryWords, List.card_toFinset]
    exact List.countP_le_length _

/-- C7: the depth-first strategy's visit order from the root is exactly the
preorder of the tree (children in original left-to-right stored order), and
the DFS loop is the left fold of the candidate-update rule over that
preorder. -/
theorem claim_C7 (root : Node) :
    dfsVisitOrder [root] = Node.preorder root ∧
    ∀ (qw : List String) (b : Option Node) (bs : Nat),
      dfsLoop qw [root] b bs = (Node.preorder root).foldl (stepBest qw) (b, bs) := by
  have h1 : dfsVisitOrder [root] = Node.preorder root := by
    rw [dfsVisitOrder_eq_preorderList]
    simp [Node.preorderList]
  exact ⟨h1, fun qw b bs => by rw [dfsLoop_eq_foldl, h1]⟩

theorem preorderList_singleton (n : Node) : Node.preorderList [n] = n.preorder := by
  simp [Node.preorderList]

/-- C8 counterexample: on the spec's example tree with the two-element
fallback pool `["a", "bb"]` and the non-matching query `"xyzzy"`, two
invocations of the BFS strategy alone (fresh random draws 0 and 1) return
different strings, refuting "two invocations of the BFS strategy alone
return the same response string" as an unconditional statement. -/
theorem claim_C8_counterexample :
    bfs_search treeEx fbTwo 0 "xyzzy" ≠ bfs_search treeEx fbTwo 1 "xyzzy" := by
  simp +decide [bfs_search, bfsLoop, treeEx, fbTwo, Node.children,
    Node.response, Node.keyword, scoreNode, randChoice]

/-- C8 (amended): for a fixed tree and fixed query the matching path itself
is deterministic — the search result does not depend on the per-call random
draw whenever the query is empty or the traversal finds a qualifying match
(positive best score); only the no-match terminal fallback draw is random. -/
theorem claim_C8 (root : Node) (fb : List String) (q : String) (r1 r2 : Nat) :
    (q = "" → bfs_search root fb r1 q = bfs_search root fb r2 q ∧
              dfs_search root fb r1 q = dfs_search root fb r2 q) ∧
    (0 < (bfsLoop (queryWords q) [root] none 0).2 →
      bfs_search root fb r1 q = bfs_search root fb r2 q) ∧
    (0 < (dfsLoop (queryWords q) [root] none 0).2 →
      dfs_search root fb r1 q = dfs_search root fb r2 q) := by
  refine ⟨?_, ?_, ?_⟩
  · intro hq
    subst hq
    constructor
    · simp [bfs_search]
    · simp [dfs_search]
  · intro hpos
    by_cases hq : q = ""
    · subst hq; simp [bfs_search]
    · rw [bfs_search, if_neg hq, bfs_search, if_neg hq]
      rcases hres : bfsLoop (queryWords q) [root] none 0 with ⟨b, bs⟩
      rw [hres] at hpos
      simp only at hpos
      cases b with
      | none =>
        exfalso
        have h0 : (bfsLoop (queryWords q) [root] none 0).2 = 0 := by
          rw [bfsLoop_eq_foldl]
          apply foldl_stepBest_none_zero
          · intro _; rfl
          · rw [← bfsLoop_eq_foldl, hres]
        rw [hres] at h0
        simp only at h0
        omega
      | some n =>
        simp [hpos]
  · intro hpos
    by_cases hq : q = ""
    · subst hq; simp [dfs_search]
    · rw [dfs_search, if_neg hq, dfs_search, if_neg hq]
      rcases hres : dfsLoop (queryWords q) [root] none 0 with ⟨b, bs⟩
      rw [hres] at hpos
      simp only at hpos
      cases b with
      | none =>
        exfalso
        have h0 : (dfsLoop (queryWords q) [root] none 0).2 = 0 := by
          rw [dfsLoop_eq_foldl]
          apply foldl_stepBest_none_zero
          · intro _; rfl
          · rw [← dfsLoop_eq_foldl, hres]
        rw [hres] at h0
        simp only at h0
        omega
      | some n =>
        simp [hpos]

/-- C8 witness: with the matching query `"hello"` on the example tree the
best score is positive, and BFS invocations with different random draws (0
and 1) agree. -/
theorem claim_C8_witness :
    bfs_search treeEx fbEx 0 "hello" = bfs_search treeEx fbEx 1 "hello" :=
  (claim_C8 treeEx fbEx "hello" 0 1).2.1 (by
    simp +decide [bfsLoop, treeEx, Node.children, Node.response,
      Node.keyword, scoreNode])

/-- C9: a non-empty query consisting only of whitespace does not fire the
empty-string short-circuit; its token set is empty, every node scores 0, and
each strategy returns the element of the fallback pool selected by its own
random draw (membership in the pool whenever it is non-empty) — not the
deterministic index-0 response. -/
theorem claim_C9 (root : Node) (fb : List String) (r : Nat) (q : String)
    (hq : q ≠ "") (ht : pySplitLower q = []) :
    (∀ n : Node, scoreNode (queryWords q) n = 0) ∧
    bfs_search root fb r q = randChoice fb r ∧
    dfs_search root fb r q = randChoice fb r ∧
    (fb ≠ [] → randChoice fb r ∈ fb) := by
  have hqw : queryWords q = [] := by rw [queryWords, ht]; rfl
  have hsc : ∀ n : Node, scoreNode (queryWords q) n = 0 := by
    intro n; rw [hqw]; rfl
  have hloopB : bfsLoop (queryWords q) [root] none 0 = (none, 0) := by
    rw [bfsLoop_eq_foldl]
    apply foldl_stepBest_no_update
    intro m _
    rw [hsc m]
  have hloopD : dfsLoop (queryWords q) [root] none 0 = (none, 0) := by
    rw [dfsLoop_eq_foldl]
    apply foldl_stepBest_no_update
    intro m _
    rw [hsc m]
  refine ⟨hsc, ?_, ?_, fun h => randChoice_mem fb r h⟩
  · rw [bfs_search, if_neg hq, hloopB]
  · rw [dfs_search, if_neg hq, hloopD]

/-- C9 witness: the one-space query on the example tree with the two-element
pool, random draw 1. -/
theorem claim_C9_witness :
    (∀ n : Node, scoreNode (queryWords " ") n = 0) ∧
    bfs_search treeEx fbTwo 1 " " = randChoice fbTwo 1 ∧
    dfs_search treeEx fbTwo 1 " " = randChoice fbTwo 1 ∧
    (fbTwo ≠ [] → randChoice fbTwo 1 ∈ fbTwo) :=
  claim_C9 treeEx fbTwo 1 " " (by decide) (by decide)

theorem bfs_search_ok (root : Node) (fb : List String) (r : Nat) (q : String)
    (hq : q ≠ "") (hfb : fb ≠ []) (hne : ∀ s ∈ fb, s ≠ "") :
    (bfs_search root fb r q ∈ (Node.preorder root).map Node.response ∨
      bfs_search root fb r q ∈ fb) ∧ bfs_search root fb r q ≠ "" := by
  rw [bfs_search, if_neg hq]
  have hsound := foldl_stepBest_sound (queryWords q) (bfsVisitOrder [root])
    ((none : Option Node), 0)
  rw [← bfsLoop_eq_foldl] at hsound
  rcases hres : bfsLoop (queryWords q) [root] none 0 with ⟨b, bs⟩
  rw [hres] at hsound
  cases b with
  | none =>
    exact ⟨Or.inr (randChoice_mem fb r hfb), hne _ (randChoice_mem fb r hfb)⟩
  | some n =>
    rcases hsound with h | ⟨m, hm, hmr, hms⟩
    · exact absurd h (by simp)
    · have hnm : n = m := by simpa using hms
      subst hnm
      have hmem : n ∈ Node.preorder root := by
        have := (bfsVisitOrder_perm [root]).mem_iff.mp hm
        rwa [preorderList_singleton] at this
      by_cases hbs : 0 < bs
      · dsimp only
        rw [if_pos hbs]
        exact ⟨Or.inl (List.mem_map_of_mem Node.response hmem), hmr⟩
      · dsimp only
        rw [if_neg hbs]
        exact ⟨Or.inr (randChoice_mem fb r hfb), hne _ (randChoice_mem fb r hfb)⟩

theorem dfs_search_ok (root : Node) (fb : List String) (r : Nat) (q : String)
    (hq : q ≠ "") (hfb : fb ≠ []) (hne : ∀ s ∈ fb, s ≠ "") :
    (dfs_search root fb r q ∈ (Node.preorder root).map Node.response ∨
      dfs_search root fb r q ∈ fb) ∧ dfs_search root fb r q ≠ "" := by
  rw [dfs_search, if_neg hq]
  have hsound := foldl_stepBest_sound (queryWords q) (dfsVisitOrder [root])
    ((none : Option Node), 0)
  rw [← dfsLoop_eq_foldl] at hsound
  rcases hres : dfsLoop (queryWords q) [root] none 0 with ⟨b, bs⟩
  rw [hres] at hsound
  cases b with
  | none =>
    exact ⟨Or.inr (randChoice_mem fb r hfb), hne _ (randChoice_mem fb r hfb)⟩
  | some n =>
    rcases hsound with h | ⟨m, hm, hmr, hms⟩
    · exact absurd h (by simp)
    · have hnm : n = m := by simpa using hms
      subst hnm
      have hmem : n ∈ Node.preorder root := by
        rw [dfsVisitOrder_eq_preorderList, preorderList_singleton] at hm
        exact hm
      by_cases hbs : 0 < bs
      · dsimp only
        rw [if_pos hbs]
        exact ⟨Or.inl (List.mem_map_of_mem Node.response hmem), hmr⟩
      · dsimp only
        rw [if_neg hbs]
        exact ⟨Or.inr (randChoice_mem fb r hfb), hne _ (randChoice_mem fb r hfb)⟩

/-- C2: for any non-empty query, `get_response` returns either the bound
response of a node of the tree or an element of the (non-empty) fallback
pool, and — all fallback responses being non-empty — the result is never
the empty string.  The embedding is total, so no error is ever raised. -/
theorem claim_C2 (root : Node) (fb : List String) (rB rD : Nat) (q : String)
    (hq : q ≠ "") (hfb : fb ≠ []) (hne : ∀ s ∈ fb, s ≠ "") :
    (get_response root fb rB rD q ∈ (Node.preorder root).map Node.response ∨
      get_response root fb rB rD q ∈ fb) ∧
    get_response root fb rB rD q ≠ "" := by
  simp only [get_response]
  split
  · exact dfs_search_ok root fb rD q hq hfb hne
  · exact bfs_search_ok root fb rB q hq hfb hne

/-- C2 witness: the example tree, its fallback pool and the query
`"hello"`. -/
theorem claim_C2_witness :
    (get_response treeEx fbEx 0 0 "hello" ∈ (Node.preorder treeEx).map Node.response ∨
      get_response treeEx fbEx 0 0 "hello" ∈ fbEx) ∧
    get_response treeEx fbEx 0 0 "hello" ≠ "" :=
  claim_C2 treeEx fbEx 0 0 "hello" (by decide) (by decide) (by decide)

/-- C10: on a non-empty query, if the tree has a single node attaining the
maximal score, that score is positive and that node's bound response is
non-empty, then BFS, DFS and `get_response` all return that node's
response — traversal order can only matter under score ties or when no node
qualifies. -/
theorem claim_C10 (root : Node) (fb : List String) (rB rD : Nat) (q : String)
    (n : Node) (hq : q ≠ "") (hmem : n ∈ Node.preorder root)
    (hresp : n.response ≠ "")
    (hpos : 0 < scoreNode (queryWords q) n)
    (hmax : ∀ m ∈ Node.preorder root, m ≠ n →
      scoreNode (queryWords q) m < scoreNode (queryWords q) n) :
    bfs_search root fb rB q = n.response ∧
    dfs_search root fb rD q = n.response ∧
    get_response root fb rB rD q = n.response := by
  have hloopB : bfsLoop (queryWords q) [root] none 0
      = (some n, scoreNode (queryWords q) n) := by
    rw [bfsLoop_eq_foldl]
    apply foldl_stepBest_max (queryWords q) n hresp
    · exact (bfsVisitOrder_perm [root]).mem_iff.mpr
        (by rw [preorderList_singleton]; exact hmem)
    · exact hpos
    · intro m hm hmn
      refine hmax m ?_ hmn
      have := (bfsVisitOrder_perm [root]).mem_iff.mp hm
      rwa [preorderList_singleton] at this
  have hloopD : dfsLoop (queryWords q) [root] none 0
      = (some n, scoreNode (queryWords q) n) := by
    rw [dfsLoop_eq_foldl]
    apply foldl_stepBest_max (queryWords q) n hresp
    · rw [dfsVisitOrder_eq_preorderList, preorderList_singleton]
      exact hmem
    · exact hpos
    · intro m hm hmn
      refine hmax m ?_ hmn
      rwa [dfsVisitOrder_eq_preorderList, preorderList_singleton] at hm
  have hb : bfs_search root fb rB q = n.response := by
    rw [bfs_search, if_neg hq, hloopB]
    dsimp only
    rw [if_pos hpos]
  have hd : dfs_search root fb rD q = n.response := by
    rw [dfs_search, if_neg hq, hloopD]
    dsimp only
    rw [if_pos hpos]
  refine ⟨hb, hd, ?_⟩
  rw [get_response]
  rw [hb, hd, if_neg (Nat.lt_irrefl _)]

/-- C10 witness: on the example tree the keyword node `"hello"` is the
unique maximal scorer for the query `"hello"`, and all three operations
return its bound response. -/
theorem claim_C10_witness :
    bfs_search treeEx fbEx 0 "hello" = (Node.mk "hello" "Hi there!" []).response ∧
    dfs_search treeEx fbEx 0 "hello" = (Node.mk "hello" "Hi there!" []).response ∧
    get_response treeEx fbEx 0 0 "hello" = (Node.mk "hello" "Hi there!" []).response :=
  claim_C10 treeEx fbEx 0 0 "hello" (Node.mk "hello" "Hi there!" [])
    (by decide)
    (by simp [treeEx, Node.preorder, Node.preorderList])
    (by decide)
    (by decide)
    (by
      intro m hm hmn
      simp [treeEx, Node.preorder, Node.preorderList] at hm
      rcases hm with rfl | rfl | rfl | rfl | rfl
      · decide
      · decide
      · exact absurd rfl hmn
      · decide
      · decide)
